import Mathlib

/-!
Verification of the `arbitrage` repository (a crypto cross-exchange scanner).

Python floats are modelled as exact rationals (`ℚ`), Python strings that are
inspected character-by-character (symbols, asset codes, error messages) as
`List Char`, and unix timestamps as integers.  Fallible operations return
`Option`.  Each definition is a direct translation of the corresponding
function in `src/arbitrage/`.
-/

/-- Character-level string, used where the Python code splits or upcases. -/
abbrev Str := List Char

/-- The `'/'` separator of canonical symbols. -/
def Chr.slash : Char := Char.ofNat 47

/-! ## Fee/VWAP engine — `src/arbitrage/fees.py` -/

/-- The floating-point fill tolerance `1e-12` from `compute_vwap_for_amount`. -/
def vwapEps : ℚ := 1 / 10 ^ 12

/-- `float(level[0])` — price field of an order-book level. -/
def levelPrice (level : List ℚ) : ℚ := level.getD 0 0

/-- `float(level[1])` — amount field of an order-book level. -/
def levelAmount (level : List ℚ) : ℚ := level.getD 1 0

/-- A level survives the skip checks of the loop in `compute_vwap_for_amount`:
it has at least two fields and positive price and amount. -/
def validLevel (level : List ℚ) : Prop :=
  2 ≤ level.length ∧ 0 < levelPrice level ∧ 0 < levelAmount level

instance (level : List ℚ) : Decidable (validLevel level) := by
  unfold validLevel; infer_instance

/-- The `for level in levels` loop of `compute_vwap_for_amount`, threading the
state `(remaining, total_quote, filled)`; returns the final
`(total_quote, filled)`.  The `break` once `remaining <= 1e-12` is kept. -/
def vwapLoop : List (List ℚ) → ℚ → ℚ → ℚ → ℚ × ℚ
  | [], _, total_quote, filled => (total_quote, filled)
  | level :: rest, remaining, total_quote, filled =>
    if validLevel level then
      let take := min remaining (levelAmount level)
      let total_quote := total_quote + take * levelPrice level
      let remaining := remaining - take
      let filled := filled + take
      if remaining ≤ vwapEps then (total_quote, filled)
      else vwapLoop rest remaining total_quote filled
    else vwapLoop rest remaining total_quote filled

/-- `compute_vwap_for_amount` (fees.py lines 6–39).  The `side` argument is
kept although, as in the source, it is never consulted. -/
def compute_vwap_for_amount (side : String) (levels : List (List ℚ))
    (amount_base : ℚ) : Option (ℚ × ℚ) :=
  if amount_base ≤ 0 then none
  else
    let (total_quote, filled) := vwapLoop levels amount_base 0 0
    if filled ≤ 0 then none
    else some (total_quote / filled, filled)

/-- Total amount available on the well-formed, positive-price, positive-amount
levels of a book side. -/
def validDepth (levels : List (List ℚ)) : ℚ :=
  (levels.filter (fun l => decide (validLevel l))).foldr
    (fun l acc => levelAmount l + acc) 0

/-- `estimate_fee_aware_profit_pct` (fees.py lines 42–68). -/
def estimate_fee_aware_profit_pct (buy_price sell_price base_amount
    taker_fee_buy taker_fee_sell withdraw_fee_base : ℚ) : ℚ :=
  let cost_quote := base_amount * buy_price
  let cost_quote_with_fee := cost_quote * (1 + taker_fee_buy)
  let base_after_withdraw := max 0 (base_amount - withdraw_fee_base)
  let revenue_quote := base_after_withdraw * sell_price
  let revenue_quote_after_fee := revenue_quote * (1 - taker_fee_sell)
  if cost_quote_with_fee ≤ 0 then -100
  else (revenue_quote_after_fee - cost_quote_with_fee) / cost_quote_with_fee * 100

/-! Rendering of claim C1's own words (no early-stop tolerance): walk the
levels in order, skip invalid ones, take `min remaining amount` from every
remaining level. -/

/-- Claim C1's description of the fill loop: greedy takes from *every* valid
level, with no `1e-12` early stop.  Returns `(total_quote, filled)`. -/
def vwapClaimLoop : List (List ℚ) → ℚ → ℚ × ℚ
  | [], _ => (0, 0)
  | level :: rest, remaining =>
    if validLevel level then
      let take := min remaining (levelAmount level)
      let (q, f) := vwapClaimLoop rest (remaining - take)
      (q + take * levelPrice level, f + take)
    else vwapClaimLoop rest remaining

/-- Claim C1 read literally: no value iff `amount_base ≤ 0` or nothing filled,
otherwise `(total_quote / filled, filled)` with the takes of
`vwapClaimLoop`. -/
def vwapClaim (side : String) (levels : List (List ℚ)) (amount_base : ℚ) :
    Option (ℚ × ℚ) :=
  if amount_base ≤ 0 then none
  else
    let (total_quote, filled) := vwapClaimLoop levels amount_base
    if filled = 0 then none
    else some (total_quote / filled, filled)

/-- Claim C1 as amended: identical to `vwapClaimLoop` except that the walk
stops as soon as the remaining amount has dropped to `≤ 1e-12`, exactly as the
spec's "stops early once remaining drops to ≤1e-12" sentence says. -/
def vwapAmendedLoop : List (List ℚ) → ℚ → ℚ × ℚ
  | [], _ => (0, 0)
  | level :: rest, remaining =>
    if validLevel level then
      let take := min remaining (levelAmount level)
      if remaining - take ≤ vwapEps then (take * levelPrice level, take)
      else
        let (q, f) := vwapAmendedLoop rest (remaining - take)
        (q + take * levelPrice level, f + take)
    else vwapAmendedLoop rest remaining

/-- The amended claim C1, as a function. -/
def vwapAmended (side : String) (levels : List (List ℚ)) (amount_base : ℚ) :
    Option (ℚ × ℚ) :=
  if amount_base ≤ 0 then none
  else
    let (total_quote, filled) := vwapAmendedLoop levels amount_base
    if filled = 0 then none
    else some (total_quote / filled, filled)

/-! ## Network-fee discovery — `ccxt_client.py` lines 165–183

`find_cheapest_common_network_fee` is modelled on the two per-currency
network-fee mappings (`fees_a.get(currency_code) or {}` and the same for B)
that the source extracts from the exchanges; a Python dict becomes an
association list with at most one binding per key. -/

/-- `m.get(n)` on a per-currency network-fee mapping. -/
def lookupFee (m : List (String × ℚ)) (n : String) : Option ℚ :=
  (m.find? (fun p => p.1 == n)).map Prod.snd

/-- The network names published by one exchange for the currency. -/
def netKeys (m : List (String × ℚ)) : List String := m.map Prod.fst

/-- `set(a.keys()) & set(b.keys())` of the source. -/
def common_networks (a b : List (String × ℚ)) : List String :=
  (netKeys a).filter (fun n => (netKeys b).contains n)

/-- The sum `a.get(n, inf) + b.get(n, 0.0)` minimized by the source's `min`.
On a common network both lookups succeed, so the source's defaults (infinity
on side A, `0.0` on side B) are unreachable there; `0` stands in for both. -/
def pairFeeSum (a b : List (String × ℚ)) (n : String) : ℚ :=
  (lookupFee a n).getD 0 + (lookupFee b n).getD 0

/-- Python's `min(xs, key=key)`: the first element attaining the minimum. -/
def minByKey (key : String → ℚ) : List String → Option String
  | [] => none
  | x :: xs =>
    some (xs.foldl (fun best n => if key n < key best then n else best) x)

/-- `find_cheapest_common_network_fee` (ccxt_client.py lines 165–183),
given the two extracted per-currency fee maps. -/
def find_cheapest_common_network_fee (a b : List (String × ℚ)) :
    Option (String × ℚ) :=
  if a.isEmpty || b.isEmpty then none
  else
    match minByKey (pairFeeSum a b) (common_networks a b) with
    | none => none
    | some best_network => some (best_network, (lookupFee a best_network).getD 0)

/-! ## Common-symbol intersection — `ccxt_client.py` lines 119–132

Markets are the normalized records produced by `load_all_markets`.  Symbols
and asset codes are `List Char` so that the source's `f"{base}/{quote}"`,
`s.split("/")` and `.upper()` can be modelled character by character. -/

structure Market where
  symbol : Str
  base : Str
  quote : Str
  taker : ℚ
  active : Bool

def marketPair (m : Market) : Str × Str := (m.base, m.quote)

/-- `{(m["base"], m["quote"]) for m in markets if m.get("active", True)}` —
the distinct (base, quote) pairs of the active markets. -/
def activePairs (ms : List Market) : List (Str × Str) :=
  ((ms.filter (fun m => m.active)).map marketPair).dedup

/-- `f"{base}/{quote}"`. -/
def renderSymbol (p : Str × Str) : Str := p.1 ++ [Chr.slash] ++ p.2

/-- `.upper()`. -/
def upperStr (s : Str) : Str := s.map Char.toUpper

/-- Python's `s.split("/")`. -/
def splitSlash : Str → List Str
  | [] => [[]]
  | c :: rest =>
    if c = Chr.slash then [] :: splitSlash rest
    else
      match splitSlash rest with
      | [] => [[c]]
      | s :: ss => (c :: s) :: ss

/-- `find_common_symbols` (ccxt_client.py lines 119–132).  The Python set of
common pairs is modelled as the dedup-ed intersection list (the set's
iteration order is irrelevant: the result is sorted before being returned).
`s.split("/")[1]` is `(splitSlash s).getD 1 []`, total where Python would
raise on a slash-free string (no rendered symbol is slash-free). -/
def find_common_symbols (markets_a markets_b : List Market)
    (preferred_quotes : Option (List Str)) : List Str :=
  let common := (activePairs markets_a).filter
    (fun p => (activePairs markets_b).contains p)
  let symbols := common.map renderSymbol
  let symbols :=
    match preferred_quotes with
    | none => symbols
    | some qs =>
      if qs.isEmpty then symbols
      else
        let quotes := qs.map upperStr
        symbols.filter
          (fun s => quotes.contains (upperStr ((splitSlash s).getD 1 [])))
  symbols.mergeSort (fun x y => decide (x ≤ y))

/-! ### Claim C8 -/

def mktBTCUSDT : Market := ⟨"BTC/USDT".data, "BTC".data, "USDT".data, 1 / 1000, true⟩

def mktETHUSDT : Market := ⟨"ETH/USDT".data, "ETH".data, "USDT".data, 1 / 1000, true⟩

def mktBTCBUSD : Market := ⟨"BTC/BUSD".data, "BTC".data, "BUSD".data, 1 / 1000, true⟩

/-! ## Safe order-book fetch — `ccxt_client.py` lines 80–106

The underlying `exchange.fetch_order_book` call is an oracle from the
optional depth limit (`none` = depth-unspecified call) to either a book or a
raised error message. -/

structure OrderBook where
  bids : List (List ℚ)
  asks : List (List ℚ)
deriving DecidableEq

abbrev FetchFun := Option Nat → Except Str OrderBook

/-- `"limit" in msg and any(x in msg for x in ["20","50","100","500","1000"])`. -/
def limitHintedMsg (msg : Str) : Bool :=
  decide ("limit".data <:+: msg) &&
    (["20".data, "50".data, "100".data, "500".data, "1000".data].any
      (fun x => decide (x <:+: msg)))

/-- The fallback ladder of depth limits chosen in the `except` branch. -/
def fallbackCandidates (exchange_id : String) (msg : Str) : List (Option Nat) :=
  if exchange_id = "kucoin" ∨ exchange_id = "kucoinfutures" then
    [some 20, some 100]
  else if limitHintedMsg msg then [some 20, some 50, some 100]
  else [none]

/-- The `for cand in candidates` retry loop: each individual failure is
swallowed, the first success is returned, `none` if all fail. -/
def firstSuccess (fetch : FetchFun) : List (Option Nat) → Option OrderBook
  | [] => none
  | cand :: rest =>
    match fetch cand with
    | Except.ok ob => some ob
    | Except.error _ => firstSuccess fetch rest

/-- `fetch_order_book_safe` (ccxt_client.py lines 80–106).  Totality of this
function is the claim's "never raises to its caller". -/
def fetch_order_book_safe (exchange_id : String) (fetch : FetchFun)
    (limit : Nat) : Option OrderBook :=
  match fetch (some limit) with
  | Except.ok ob => some ob
  | Except.error msg => firstSuccess fetch (fallbackCandidates exchange_id msg)

/-- A concrete fetch oracle for the C6 witness: succeeds only at depth 20. -/
def fetchW : FetchFun := fun cand =>
  if cand = some 20 then Except.ok ⟨[], []⟩ else Except.error "fail".data

/-! ## Key/value cache — `cache.py` lines 34–62

The `kv_store` sqlite table is a list of rows with at most one row per key
(`k TEXT PRIMARY KEY`); `INSERT OR REPLACE` is an upsert.  JSON
serialization (`json.dumps`/`json.loads`, an external-library boundary) is a
pair of functions `enc`/`dec`; a value is JSON-serializable exactly when
`dec (enc value) = some value`.  `int(time.time())` timestamps are the
explicit `now` arguments. -/

structure KVRow where
  k : String
  v : Str
  updated_at : ℤ

/-- `SELECT v, updated_at FROM kv_store WHERE k = ? LIMIT 1`. -/
def kvLookup (st : List KVRow) (key : String) : Option (Str × ℤ) :=
  (st.find? (fun r => r.k == key)).map (fun r => (r.v, r.updated_at))

/-- `INSERT OR REPLACE INTO kv_store(k, v, updated_at) VALUES(?, ?, ?)`. -/
def kvUpsert (st : List KVRow) (key : String) (payload : Str) (now : ℤ) :
    List KVRow :=
  ⟨key, payload, now⟩ :: st.filter (fun r => !(r.k == key))

/-- `set_json` (cache.py lines 34–45). -/
def set_json {α : Type} (enc : α → Str) (st : List KVRow) (now : ℤ)
    (key : String) (value : α) : List KVRow :=
  kvUpsert st key (enc value) now

/-- `get_json` (cache.py lines 47–62): absent row gives no value; with a ttl
given, a row older than the ttl gives no value; otherwise the payload is
deserialized. -/
def get_json {α : Type} (dec : Str → Option α) (st : List KVRow) (now : ℤ)
    (key : String) (ttl_seconds : Option ℤ) : Option α :=
  match kvLookup st key with
  | none => none
  | some (v, updated_at) =>
    match ttl_seconds with
    | some ttl => if now - updated_at > ttl then none else dec v
    | none => dec v

/-- Concrete serializer for the C7 witness (a unary encoding; decoding reads
back the length, so every `ℕ` round-trips). -/
def encW (n : ℕ) : Str := List.replicate n Chr.slash

/-- Concrete deserializer for the C7 witness. -/
def decW (s : Str) : Option ℕ := some s.length

/-! ## Scanner — `scanner.py` lines 69–195

One scan pass over the common symbols.  Exchange I/O is given by oracles on
the environment: the fetched order books per symbol and side, the taker fees
(`get_taker_fee_for_market` applied to the per-symbol market records), and
the outcome of `find_cheapest_common_network_fee` per base asset and
direction.  The per-base network-fee memoization dict is an association
list; each actual `find_cheapest_common_network_fee` invocation is recorded
as a (direction, base) event. -/

inductive Direction
  | ab
  | ba
deriving DecidableEq

structure Opportunity where
  symbol : Str
  buy_exchange : String
  sell_exchange : String
  profit_pct : ℚ
  base_amount : ℚ
  buy_price : ℚ
  sell_price : ℚ
  network : Option String
deriving DecidableEq

structure ScanEnv where
  id_a : String
  id_b : String
  books_a : Str → Option OrderBook
  books_b : Str → Option OrderBook
  taker_a : Str → ℚ
  taker_b : Str → ℚ
  netAB : Str → Option (String × ℚ)
  netBA : Str → Option (String × ℚ)
  min_notional_usd : ℚ
  min_profit_pct : ℚ
  preferred_quotes : List Str

abbrev NetCache := List (Str × (Option String × ℚ))

/-- `base in network_fee_cache` / `network_fee_cache[base]`. -/
def cacheLookup (c : NetCache) (base : Str) : Option (Option String × ℚ) :=
  (c.find? (fun p => p.1 == base)).map Prod.snd

/-- `network_fee_cache[base] = v` for a base not yet present. -/
def cacheInsert (c : NetCache) (base : Str) (v : Option String × ℚ) :
    NetCache :=
  (base, v) :: c

/-- `(net[0], net[1]) if net else (None, 0.0)`. -/
def netEntry : Option (String × ℚ) → Option String × ℚ
  | some (n, f) => (some n, f)
  | none => (none, 0)

structure StepResult where
  cache : NetCache
  opps : List Opportunity
  events : List (Direction × Str)
deriving DecidableEq

/-- The body of one iteration of the `for sym in symbols` loop (scanner.py
lines 94–193) up to and including the two profit computations: returns the
updated network-fee cache, the `find_cheapest_common_network_fee` invocation
events, and the computed forward (A→B) and reverse (B→A) candidate
opportunities, before the profit-threshold guards of lines 141 and 181.  A
symbol that does not split into exactly two components would raise
`ValueError` at `base, quote = sym.split("/")` and abort the whole scan;
such a pass returns nothing, and this model skips the symbol instead. -/
def stepCandidates (env : ScanEnv) (cache : NetCache) (sym : Str) :
    NetCache × List (Direction × Str) × Option Opportunity × Option Opportunity :=
  match env.books_a sym, env.books_b sym with
  | some ob_a, some ob_b =>
    match splitSlash sym with
    | [base, quote] =>
      if (env.preferred_quotes.map upperStr).contains (upperStr quote) then
        if ob_a.asks.isEmpty || ob_b.bids.isEmpty then (cache, [], none, none)
        else
          let top_ask := levelPrice ob_a.asks.headI
          let est_base_amount := max (1 / 10 ^ 6) (env.min_notional_usd / top_ask)
          match compute_vwap_for_amount "buy" ob_a.asks est_base_amount,
              compute_vwap_for_amount "sell" ob_b.bids est_base_amount with
          | some (buy_avg, buy_filled), some (sell_avg, sell_filled) =>
            let base_amount := min buy_filled sell_filled
            if base_amount ≤ 0 then (cache, [], none, none)
            else
              let fwd :=
                match cacheLookup cache base with
                | some _ => (cache, ([] : List (Direction × Str)))
                | none => (cacheInsert cache base (netEntry (env.netAB base)),
                    [(Direction.ab, base)])
              let entry1 := (cacheLookup fwd.1 base).getD (none, 0)
              let profit_ab := estimate_fee_aware_profit_pct buy_avg sell_avg
                base_amount (env.taker_a sym) (env.taker_b sym) entry1.2
              let candAB : Option Opportunity :=
                some ⟨sym, env.id_a, env.id_b, profit_ab, base_amount,
                  buy_avg, sell_avg, entry1.1⟩
              if ob_b.asks.isEmpty || ob_a.bids.isEmpty then
                (fwd.1, fwd.2, candAB, none)
              else
                let top_ask_b := levelPrice ob_b.asks.headI
                let est_base_amount_b := max (1 / 10 ^ 6)
                  (env.min_notional_usd / top_ask_b)
                match compute_vwap_for_amount "buy" ob_b.asks est_base_amount_b,
                    compute_vwap_for_amount "sell" ob_a.bids est_base_amount_b with
                | some (buy_avg_b, buy_filled_b), some (sell_avg_a, sell_filled_a) =>
                  let base_amount_b := min buy_filled_b sell_filled_a
                  let rev :=
                    match cacheLookup fwd.1 base with
                    | some _ => (fwd.1, ([] : List (Direction × Str)))
                    | none => (cacheInsert fwd.1 base (netEntry (env.netBA base)),
                        [(Direction.ba, base)])
                  let entry2 := (cacheLookup rev.1 base).getD (none, 0)
                  let profit_ba := estimate_fee_aware_profit_pct buy_avg_b
                    sell_avg_a base_amount_b (env.taker_b sym) (env.taker_a sym)
                    entry2.2
                  (rev.1, fwd.2 ++ rev.2, candAB,
                    some ⟨sym, env.id_b, env.id_a, profit_ba, base_amount_b,
                      buy_avg_b, sell_avg_a, entry2.1⟩)
                | _, _ => (fwd.1, fwd.2, candAB, none)
          | _, _ => (cache, [], none, none)
      else (cache, [], none, none)
    | _ => (cache, [], none, none)
  | _, _ => (cache, [], none, none)

/-- Lines 141 and 181: `if profit >= self.settings.min_profit_pct:
opportunities.append(...)`. -/
def recordIf (min_profit_pct : ℚ) : Option Opportunity → List Opportunity
  | some o => if min_profit_pct ≤ o.profit_pct then [o] else []
  | none => []

/-- The same append with the threshold guard removed (records every computed
candidate); used to state claim C3's "recorded iff profit ≥ minimum". -/
def recordAll : Option Opportunity → List Opportunity
  | some o => [o]
  | none => []

/-- One iteration of the `for sym in symbols` loop, with the source's
profit-threshold guards. -/
def stepSymbol (env : ScanEnv) (cache : NetCache) (sym : Str) : StepResult :=
  let r := stepCandidates env cache sym
  ⟨r.1, recordIf env.min_profit_pct r.2.2.1 ++ recordIf env.min_profit_pct r.2.2.2,
    r.2.1⟩

/-- One iteration recording every computed candidate, thresholded or not. -/
def stepSymbolAll (env : ScanEnv) (cache : NetCache) (sym : Str) : StepResult :=
  let r := stepCandidates env cache sym
  ⟨r.1, recordAll r.2.2.1 ++ recordAll r.2.2.2, r.2.1⟩

/-- The whole `for sym in symbols` loop. -/
def scanLoop (env : ScanEnv) : List Str → NetCache → StepResult
  | [], cache => ⟨cache, [], []⟩
  | sym :: rest, cache =>
    let st := stepSymbol env cache sym
    let later := scanLoop env rest st.cache
    ⟨later.cache, st.opps ++ later.opps, st.events ++ later.events⟩

/-- The loop of `stepSymbolAll`: every candidate, no thresholding. -/
def scanAllLoop (env : ScanEnv) : List Str → NetCache → StepResult
  | [], cache => ⟨cache, [], []⟩
  | sym :: rest, cache =>
    let st := stepSymbolAll env cache sym
    let later := scanAllLoop env rest st.cache
    ⟨later.cache, st.opps ++ later.opps, st.events ++ later.events⟩

/-- The pure opportunity-collection core of `scan_two_exchanges`
(scanner.py lines 94–195): the symbol loop from an empty network-fee cache,
then `opportunities.sort(key=lambda o: o.profit_pct, reverse=True)` — a
stable descending sort by profit percent. -/
def scan_two_exchanges (env : ScanEnv) (symbols : List Str) :
    List Opportunity :=
  (scanLoop env symbols []).opps.mergeSort
    (fun x y => decide (y.profit_pct ≤ x.profit_pct))

/-- Witness scan environment: one symbol `B/U`; on exchange A both book
sides are `[[1, 100]]`, on exchange B both are `[[2, 100]]`; zero taker
fees; the forward network lookup finds TRC20 with fee `0.1`; the threshold
`-100` records every candidate. -/
def symW : Str := "B/U".data

def bookA : OrderBook := ⟨[[1, 100]], [[1, 100]]⟩

def bookB : OrderBook := ⟨[[2, 100]], [[2, 100]]⟩

def envW : ScanEnv :=
  ⟨"exa", "exb", fun _ => some bookA, fun _ => some bookB,
    fun _ => 0, fun _ => 0,
    fun _ => some ("TRC20", 1 / 10), fun _ => none,
    1, -100, ["U".data]⟩

/-- Same environment with no shared withdrawal network for any base. -/
def envW9 : ScanEnv :=
  ⟨"exa", "exb", fun _ => some bookA, fun _ => some bookB,
    fun _ => 0, fun _ => 0,
    fun _ => none, fun _ => none,
    1, -100, ["U".data]⟩

/-! ## Theorems -/

/-! ### Lemmas about the VWAP loop -/

theorem validDepth_nil : validDepth [] = 0 := rfl

theorem validDepth_cons (level : List ℚ) (rest : List (List ℚ)) :
    validDepth (level :: rest) =
      if validLevel level then levelAmount level + validDepth rest
      else validDepth rest := by
  by_cases hv : validLevel level <;>
    simp [validDepth, List.filter_cons, hv]

theorem validDepth_nonneg (levels : List (List ℚ)) : 0 ≤ validDepth levels := by
  induction levels with
  | nil => simp [validDepth_nil]
  | cons level rest ih =>
    rw [validDepth_cons]
    by_cases hv : validLevel level
    · simp only [if_pos hv]
      have := hv.2.2
      linarith
    · simpa [if_neg hv] using ih

/-- The source loop equals the amended-claim loop: the source threads
accumulators, the amended loop returns the contribution of the suffix. -/
theorem vwapLoop_eq_amended (levels : List (List ℚ)) :
    ∀ r t f, vwapLoop levels r t f =
      (t + (vwapAmendedLoop levels r).1, f + (vwapAmendedLoop levels r).2) := by
  induction levels with
  | nil => intro r t f; simp [vwapLoop, vwapAmendedLoop]
  | cons level rest ih =>
    intro r t f
    by_cases hv : validLevel level
    · by_cases he : r - min r (levelAmount level) ≤ vwapEps
      · simp [vwapLoop, vwapAmendedLoop, hv, he]
      · simp only [vwapLoop, vwapAmendedLoop, if_pos hv, if_neg he]
        rw [ih]
        rcases hrec : vwapAmendedLoop rest (r - min r (levelAmount level)) with ⟨q, f2⟩
        simp only [hrec, Prod.mk.injEq]
        constructor <;> ring
    · simp only [vwapLoop, vwapAmendedLoop, if_neg hv]
      exact ih r t f

/-- Bounds maintained by the amended loop, used for C1 and C10. -/
theorem vwapAmendedLoop_bounds (levels : List (List ℚ)) :
    ∀ r, 0 ≤ r →
      0 ≤ (vwapAmendedLoop levels r).2 ∧
      (vwapAmendedLoop levels r).2 ≤ r ∧
      (vwapAmendedLoop levels r).2 ≤ validDepth levels ∧
      0 ≤ (vwapAmendedLoop levels r).1 ∧
      (0 < (vwapAmendedLoop levels r).2 → 0 < (vwapAmendedLoop levels r).1) := by
  induction levels with
  | nil =>
    intro r hr
    simp only [vwapAmendedLoop, validDepth_nil]
    refine ⟨le_refl 0, hr, le_refl 0, le_refl 0, fun h => absurd h (lt_irrefl 0)⟩
  | cons level rest ih =>
    intro r hr
    by_cases hv : validLevel level
    · have hamt : 0 < levelAmount level := hv.2.2
      have hpr : 0 < levelPrice level := hv.2.1
      have htake0 : 0 ≤ min r (levelAmount level) := le_min hr (le_of_lt hamt)
      have htaker : min r (levelAmount level) ≤ r := min_le_left _ _
      have htakea : min r (levelAmount level) ≤ levelAmount level := min_le_right _ _
      have hdep := validDepth_nonneg rest
      by_cases he : r - min r (levelAmount level) ≤ vwapEps
      · simp only [vwapAmendedLoop, if_pos hv, if_pos he, validDepth_cons]
        refine ⟨htake0, htaker, by linarith, ?_, ?_⟩
        · exact mul_nonneg htake0 (le_of_lt hpr)
        · intro hpos
          exact mul_pos hpos hpr
      · have hrpos : 0 < r := by
          rcases lt_or_eq_of_le hr with h | h
          · exact h
          · exfalso
            apply he
            rw [← h, min_eq_left (le_of_lt hamt)]
            norm_num [vwapEps]
        have htk : 0 < min r (levelAmount level) := lt_min hrpos hamt
        have hr2 : (0:ℚ) ≤ r - min r (levelAmount level) := by
          have heps : (0:ℚ) < vwapEps := by norm_num [vwapEps]
          linarith [not_le.mp he]
        obtain ⟨h1, h2, h3, h4, h5⟩ := ih (r - min r (levelAmount level)) hr2
        simp only [vwapAmendedLoop, if_pos hv, if_neg he, validDepth_cons]
        rcases hrec : vwapAmendedLoop rest (r - min r (levelAmount level)) with ⟨q, f2⟩
        rw [hrec] at h1 h2 h3 h4 h5
        simp only [h1, h2, h3, h4, h5]
        have htp : 0 < min r (levelAmount level) * levelPrice level := mul_pos htk hpr
        refine ⟨by linarith, by linarith, by linarith, by linarith, ?_⟩
        intro
        linarith
    · simp only [vwapAmendedLoop, if_neg hv, validDepth_cons, if_neg hv]
      exact ih r hr

/-! ### Claims C1, C2, C10 -/

/-- C1 (amended): `compute_vwap_for_amount` walks the levels in order,
skips malformed or non-positive levels, greedily takes
`min remaining amount` from each level *stopping early once the remaining
amount drops to ≤ 1e-12*, returns no value exactly when `amount_base ≤ 0` or
nothing was filled, and otherwise returns `(total_quote / filled, filled)`;
for ask levels `[[100,1],[101,2]]` and amount `1.5` it returns filled `1.5`
and average price `(1*100 + 0.5*101)/1.5 = 301/3`. -/
theorem claim_C1_vwap :
    (∀ side levels amount_base, compute_vwap_for_amount side levels amount_base
        = vwapAmended side levels amount_base) ∧
    compute_vwap_for_amount "buy" [[100, 1], [101, 2]] (3 / 2)
      = some (301 / 3, 3 / 2) := by
  constructor
  · intro side levels a
    unfold compute_vwap_for_amount vwapAmended
    by_cases ha : a ≤ 0
    · simp [ha]
    · simp only [if_neg ha]
      rw [vwapLoop_eq_amended]
      rcases hrec : vwapAmendedLoop levels a with ⟨q, f⟩
      have hb := (vwapAmendedLoop_bounds levels a (le_of_lt (not_le.mp ha))).1
      rw [hrec] at hb
      simp only [zero_add]
      by_cases hf : f = 0
      · simp [hf]
      · have hfpos : 0 < f := lt_of_le_of_ne hb (Ne.symm hf)
        rw [if_neg (not_le.mpr hfpos), if_neg hf]
  · norm_num [compute_vwap_for_amount, vwapLoop, validLevel, levelPrice,
      levelAmount, vwapEps, List.getD]

/-- C1 counterexample: with levels `[[1,1],[1,1]]` and requested amount
`1 + 5e-13`, the code stops at the `1e-12` tolerance and reports
filled `= 1`, while the claim's tolerance-free greedy walk would fill the
whole requested `1 + 5e-13` (depth 2 is ample), so the claim's reported
fill differs from the code's. -/
theorem claim_C1_counterexample :
    compute_vwap_for_amount "buy" [[1, 1], [1, 1]] (1 + 1 / 2000000000000)
      = some (1, 1) ∧
    vwapClaim "buy" [[1, 1], [1, 1]] (1 + 1 / 2000000000000)
      = some (1, 1 + 1 / 2000000000000) ∧
    (1 : ℚ) ≠ 1 + 1 / 2000000000000 := by
  refine ⟨?_, ?_, ?_⟩ <;>
    norm_num [compute_vwap_for_amount, vwapClaim, vwapLoop, vwapClaimLoop,
      validLevel, levelPrice, levelAmount, vwapEps, List.getD]

/-- C2: `estimate_fee_aware_profit_pct` returns
`(revenue - cost) / cost * 100` with
`cost = base_amount * buy_price * (1 + taker_fee_buy)`,
`revenue = max 0 (base_amount - withdraw_fee_base) * sell_price *
(1 - taker_fee_sell)`, except that it returns exactly `-100` whenever
`cost ≤ 0`. -/
theorem claim_C2_fee_profit :
    ∀ buy_price sell_price base_amount taker_fee_buy taker_fee_sell
        withdraw_fee_base : ℚ,
      estimate_fee_aware_profit_pct buy_price sell_price base_amount
          taker_fee_buy taker_fee_sell withdraw_fee_base =
        if base_amount * buy_price * (1 + taker_fee_buy) ≤ 0 then -100
        else (max 0 (base_amount - withdraw_fee_base) * sell_price
              * (1 - taker_fee_sell)
            - base_amount * buy_price * (1 + taker_fee_buy))
          / (base_amount * buy_price * (1 + taker_fee_buy)) * 100 := by
  intro buy_price sell_price base_amount taker_fee_buy taker_fee_sell w
  rfl

/-- C10: whenever `compute_vwap_for_amount` returns a pair
`(avg_price, filled)` for a positive requested amount, the fill is positive,
never exceeds the requested amount or the total valid depth, and the average
price is positive. -/
theorem claim_C10_vwap_bounds (side : String) (levels : List (List ℚ))
    (amount_base : ℚ) (hpos : 0 < amount_base) (p : ℚ × ℚ)
    (h : compute_vwap_for_amount side levels amount_base = some p) :
    0 < p.2 ∧ p.2 ≤ amount_base ∧ p.2 ≤ validDepth levels ∧ 0 < p.1 := by
  unfold compute_vwap_for_amount at h
  rw [if_neg (not_le.mpr hpos), vwapLoop_eq_amended] at h
  rcases hrec : vwapAmendedLoop levels amount_base with ⟨q, f⟩
  rw [hrec] at h
  simp only [zero_add] at h
  obtain ⟨h1, h2, h3, h4, h5⟩ :=
    vwapAmendedLoop_bounds levels amount_base (le_of_lt hpos)
  rw [hrec] at h1 h2 h3 h4 h5
  by_cases hf : f ≤ 0
  · rw [if_pos hf] at h
    exact absurd h (by simp)
  · rw [if_neg hf] at h
    have hfpos : 0 < f := not_le.mp hf
    have hq : 0 < q := h5 hfpos
    have hp : (q / f, f) = p := Option.some_inj.mp h
    subst hp
    exact ⟨hfpos, h2, h3, div_pos hq hfpos⟩

/-- Witness for C10 at the concrete book `[[100,1],[101,2]]` and amount
`3/2`. -/
theorem claim_C10_witness :
    0 < (((301 : ℚ) / 3, (3 : ℚ) / 2)).2 ∧
    (((301 : ℚ) / 3, (3 : ℚ) / 2)).2 ≤ 3 / 2 ∧
    (((301 : ℚ) / 3, (3 : ℚ) / 2)).2 ≤ validDepth [[100, 1], [101, 2]] ∧
    0 < (((301 : ℚ) / 3, (3 : ℚ) / 2)).1 := by
  refine claim_C10_vwap_bounds "buy" [[100, 1], [101, 2]] (3 / 2)
    (by norm_num) (301 / 3, 3 / 2) ?_
  norm_num [compute_vwap_for_amount, vwapLoop, validLevel, levelPrice,
    levelAmount, vwapEps, List.getD]

/-! ### Lemmas about the argmin fold -/

theorem foldlMin_mem (key : String → ℚ) :
    ∀ (xs : List String) (x : String),
      xs.foldl (fun best n => if key n < key best then n else best) x ∈ x :: xs := by
  intro xs
  induction xs with
  | nil => intro x; simp
  | cons y ys ih =>
    intro x
    simp only [List.foldl_cons]
    rcases List.mem_cons.mp (ih (if key y < key x then y else x)) with h1 | h1
    · rw [h1]
      by_cases hc : key y < key x
      · simp [hc]
      · simp [hc]
    · simp [List.mem_cons, h1]

theorem foldlMin_le (key : String → ℚ) :
    ∀ (xs : List String) (x y : String), y ∈ x :: xs →
      key (xs.foldl (fun best n => if key n < key best then n else best) x) ≤ key y := by
  intro xs
  induction xs with
  | nil =>
    intro x y hy
    rcases List.mem_cons.mp hy with h | h
    · rw [h]
      simp
    · exact absurd h (List.not_mem_nil y)
  | cons z zs ih =>
    intro x y hy
    have hinit : key (if key z < key x then z else x) ≤ key x ∧
        key (if key z < key x then z else x) ≤ key z := by
      by_cases hc : key z < key x
      · rw [if_pos hc]; exact ⟨le_of_lt hc, le_refl _⟩
      · rw [if_neg hc]; exact ⟨le_refl _, not_lt.mp hc⟩
    have hstep : key (zs.foldl (fun best n => if key n < key best then n else best)
        (if key z < key x then z else x)) ≤ key (if key z < key x then z else x) :=
      ih _ _ (List.mem_cons_self _ _)
    simp only [List.foldl_cons]
    rcases List.mem_cons.mp hy with h | h
    · rw [h]
      exact le_trans hstep hinit.1
    · rcases List.mem_cons.mp h with h2 | h2
      · rw [h2]
        exact le_trans hstep hinit.2
      · exact ih _ y (List.mem_cons_of_mem _ h2)

theorem lookupFee_isSome_iff (m : List (String × ℚ)) (n : String) :
    (∃ fee, lookupFee m n = some fee) ↔ n ∈ netKeys m := by
  simp only [lookupFee, netKeys, Option.map_eq_some', List.mem_map]
  constructor
  · rintro ⟨fee, p, hp, hsnd⟩
    have := List.find?_some hp
    have hkey : p.1 = n := by simpa using this
    exact ⟨p, List.mem_of_find?_eq_some hp, hkey⟩
  · rintro ⟨p, hmem, hkey⟩
    have : (m.find? (fun q => q.1 == n)).isSome := by
      apply List.find?_isSome.mpr
      exact ⟨p, hmem, by simpa using hkey⟩
    rcases Option.isSome_iff_exists.mp this with ⟨q, hq⟩
    exact ⟨q.2, q, hq, rfl⟩

theorem minByKey_eq_none_iff (key : String → ℚ) (xs : List String) :
    minByKey key xs = none ↔ xs = [] := by
  cases xs <;> simp [minByKey]

theorem minByKey_mem (key : String → ℚ) (xs : List String) (n : String)
    (h : minByKey key xs = some n) : n ∈ xs := by
  cases xs with
  | nil => simp [minByKey] at h
  | cons x rest =>
    simp only [minByKey, Option.some_inj] at h
    rw [← h]
    exact foldlMin_mem key rest x

theorem minByKey_le (key : String → ℚ) (xs : List String) (n : String)
    (h : minByKey key xs = some n) : ∀ y ∈ xs, key n ≤ key y := by
  cases xs with
  | nil => simp [minByKey] at h
  | cons x rest =>
    simp only [minByKey, Option.some_inj] at h
    intro y hy
    rw [← h]
    exact foldlMin_le key rest x y hy

/-- C5: `find_cheapest_common_network_fee` returns no value exactly when
either exchange's fee map for the currency is empty or the two network-name
sets do not intersect; otherwise it returns a network published by both
exchanges that minimizes the sum of the two exchanges' fees, paired with
exchange A's fee for it. -/
theorem claim_C5_cheapest_network (a b : List (String × ℚ)) :
    (find_cheapest_common_network_fee a b = none ↔
      a = [] ∨ b = [] ∨ common_networks a b = []) ∧
    (∀ n f, find_cheapest_common_network_fee a b = some (n, f) →
      n ∈ netKeys a ∧ n ∈ netKeys b ∧ lookupFee a n = some f ∧
      ∃ fb, lookupFee b n = some fb ∧
        ∀ m ga gb, lookupFee a m = some ga → lookupFee b m = some gb →
          f + fb ≤ ga + gb) := by
  by_cases hab : (a.isEmpty || b.isEmpty) = true
  · constructor
    · simp only [find_cheapest_common_network_fee, hab, if_true, true_iff]
      rcases Bool.or_eq_true_iff.mp hab with h | h
      · exact Or.inl (List.isEmpty_iff.mp h)
      · exact Or.inr (Or.inl (List.isEmpty_iff.mp h))
    · intro n f h
      simp [find_cheapest_common_network_fee, hab] at h
  · rw [Bool.not_eq_true] at hab
    cases hmin : minByKey (pairFeeSum a b) (common_networks a b) with
    | none =>
      constructor
      · simp only [find_cheapest_common_network_fee, hab, Bool.false_eq_true,
          if_false, hmin, true_iff]
        exact Or.inr (Or.inr ((minByKey_eq_none_iff _ _).mp hmin))
      · intro n f h
        simp [find_cheapest_common_network_fee, hab, hmin] at h
    | some best =>
      have hbmem := minByKey_mem _ _ _ hmin
      have hbmemA : best ∈ netKeys a := (List.mem_filter.mp hbmem).1
      have hbmemB : best ∈ netKeys b := by
        have := (List.mem_filter.mp hbmem).2
        simpa [List.contains] using this
      obtain ⟨fa, hfa⟩ := (lookupFee_isSome_iff a best).mpr hbmemA
      obtain ⟨fb, hfb⟩ := (lookupFee_isSome_iff b best).mpr hbmemB
      constructor
      · constructor
        · intro h
          simp [find_cheapest_common_network_fee, hab, hmin] at h
        · intro h
          exfalso
          rcases h with h | h | h
          · rw [h] at hab; simp at hab
          · rw [h] at hab; simp at hab
          · rw [h] at hmin; simp [minByKey] at hmin
      · intro n f h
        simp only [find_cheapest_common_network_fee, hab, Bool.false_eq_true,
          if_false, hmin, Option.some_inj, Prod.mk.injEq] at h
        obtain ⟨hn, hf⟩ := h
        subst hn
        rw [hfa] at hf
        simp only [Option.getD_some] at hf
        subst hf
        refine ⟨hbmemA, hbmemB, hfa, fb, hfb, ?_⟩
        intro m ga gb hga hgb
        have hmA : m ∈ netKeys a := (lookupFee_isSome_iff a m).mp ⟨ga, hga⟩
        have hmB : m ∈ netKeys b := (lookupFee_isSome_iff b m).mp ⟨gb, hgb⟩
        have hmC : m ∈ common_networks a b := by
          apply List.mem_filter.mpr
          exact ⟨hmA, by simpa [List.contains] using hmB⟩
        have := minByKey_le _ _ _ hmin m hmC
        rw [pairFeeSum, pairFeeSum, hfa, hfb, hga, hgb] at this
        simpa using this

/-- Witness for C5: maps `[("TRC20",1),("ERC20",5)]` and
`[("ERC20",2),("TRC20",3)]` share both networks; fee sums are 4 and 7, so
TRC20 (A-side fee 1) is chosen. -/
theorem claim_C5_witness :
    "TRC20" ∈ netKeys [("TRC20", (1 : ℚ)), ("ERC20", 5)] ∧
    "TRC20" ∈ netKeys [("ERC20", (2 : ℚ)), ("TRC20", 3)] ∧
    lookupFee [("TRC20", (1 : ℚ)), ("ERC20", 5)] "TRC20" = some 1 ∧
    ∃ fb, lookupFee [("ERC20", (2 : ℚ)), ("TRC20", 3)] "TRC20" = some fb ∧
      ∀ m ga gb, lookupFee [("TRC20", (1 : ℚ)), ("ERC20", 5)] m = some ga →
        lookupFee [("ERC20", (2 : ℚ)), ("TRC20", 3)] m = some gb →
        1 + fb ≤ ga + gb := by
  have e1 : ("ERC20" == "TRC20") = false := by decide
  have e2 : ("TRC20" == "ERC20") = false := by decide
  have e3 : ("TRC20" == "TRC20") = true := by decide
  have e4 : ("ERC20" == "ERC20") = true := by decide
  refine (claim_C5_cheapest_network
    [("TRC20", (1 : ℚ)), ("ERC20", 5)] [("ERC20", (2 : ℚ)), ("TRC20", 3)]).2
    "TRC20" 1 ?_
  norm_num [find_cheapest_common_network_fee, minByKey, common_networks,
    netKeys, pairFeeSum, lookupFee, List.find?, List.filter, List.contains,
    List.elem, e1, e2, e3, e4]

theorem mem_activePairs (ms : List Market) (p : Str × Str) :
    p ∈ activePairs ms ↔ ∃ m, m ∈ ms ∧ m.active = true ∧ marketPair m = p := by
  simp only [activePairs, List.mem_dedup, List.mem_map, List.mem_filter]
  constructor
  · rintro ⟨m, ⟨hm, ha⟩, hp⟩
    exact ⟨m, hm, ha, hp⟩
  · rintro ⟨m, hm, ha, hp⟩
    exact ⟨m, ⟨hm, ha⟩, hp⟩

theorem mergeSort_of_eq_singleton {l : List Str} {s : Str}
    (h : l = [s]) :
    l.mergeSort (fun x y => decide (x ≤ y)) = [s] := by
  rw [h]
  exact List.mergeSort_singleton s

/-- C8 counterexample: with an explicitly given *empty* preferred-quotes set,
the source applies no quote filter at all (an empty Python tuple is falsy),
so `BTC/USDT` is returned even though no quote matches a member of the empty
preferred set — the claim's restriction would return the empty list. -/
theorem claim_C8_counterexample :
    find_common_symbols [mktBTCUSDT] [mktBTCUSDT] (some []) = ["BTC/USDT".data] ∧
    ¬ ∃ q : Str, q ∈ ([] : List Str) ∧
      upperStr ((splitSlash "BTC/USDT".data).getD 1 []) = upperStr q := by
  constructor
  · simp only [find_common_symbols, List.isEmpty_nil, if_true]
    apply mergeSort_of_eq_singleton
    decide
  · rintro ⟨q, hq, -⟩
    exact List.not_mem_nil q hq

/-- C8 (amended): `find_common_symbols` returns exactly the rendered
"BASE/QUOTE" strings of (base, quote) pairs active on both sides, restricted
— when a *non-empty* preferred-quotes set is given — to symbols whose second
'/'-separated component (the quote asset, for slash-free asset codes)
matches a preferred quote case-insensitively, sorted lexicographically
ascending; on the claim's concrete example the result is exactly
`["BTC/USDT"]`. -/
theorem claim_C8_common_symbols (markets_a markets_b : List Market)
    (preferred_quotes : Option (List Str)) :
    List.Sorted (fun x y => x ≤ y)
      (find_common_symbols markets_a markets_b preferred_quotes) ∧
    (∀ s, s ∈ find_common_symbols markets_a markets_b preferred_quotes ↔
      ((∃ p, p ∈ activePairs markets_a ∧ p ∈ activePairs markets_b ∧
          s = renderSymbol p) ∧
        ∀ qs, preferred_quotes = some qs → qs ≠ [] →
          ∃ q, q ∈ qs ∧
            upperStr ((splitSlash s).getD 1 []) = upperStr q)) ∧
    find_common_symbols [mktBTCUSDT, mktETHUSDT] [mktBTCUSDT, mktBTCBUSD]
      (some ["USDT".data]) = ["BTC/USDT".data] := by
  have htrans : ∀ a b c : Str, (fun x y => decide (x ≤ y)) a b = true →
      (fun x y => decide (x ≤ y)) b c = true →
      (fun x y => decide (x ≤ y)) a c = true := by
    intro a b c hab hbc
    simp only [decide_eq_true_eq] at hab hbc ⊢
    exact le_trans hab hbc
  have htotal : ∀ a b : Str, ((fun x y => decide (x ≤ y)) a b ||
      (fun x y => decide (x ≤ y)) b a) = true := by
    intro a b
    simp only [Bool.or_eq_true, decide_eq_true_eq]
    exact le_total a b
  refine ⟨?_, ?_, ?_⟩
  · have hs := List.sorted_mergeSort htrans htotal
      (match preferred_quotes with
       | none => (activePairs markets_a).filter
           (fun p => (activePairs markets_b).contains p) |>.map renderSymbol
       | some qs =>
         if qs.isEmpty then
           (activePairs markets_a).filter
             (fun p => (activePairs markets_b).contains p) |>.map renderSymbol
         else
           ((activePairs markets_a).filter
             (fun p => (activePairs markets_b).contains p) |>.map renderSymbol).filter
             (fun s => (qs.map upperStr).contains
               (upperStr ((splitSlash s).getD 1 []))))
    have : find_common_symbols markets_a markets_b preferred_quotes =
        List.mergeSort
          (match preferred_quotes with
           | none => (activePairs markets_a).filter
               (fun p => (activePairs markets_b).contains p) |>.map renderSymbol
           | some qs =>
             if qs.isEmpty then
               (activePairs markets_a).filter
                 (fun p => (activePairs markets_b).contains p) |>.map renderSymbol
             else
               ((activePairs markets_a).filter
                 (fun p => (activePairs markets_b).contains p) |>.map renderSymbol).filter
                 (fun s => (qs.map upperStr).contains
                   (upperStr ((splitSlash s).getD 1 [])))) (fun x y => decide (x ≤ y)) := by
      cases preferred_quotes <;> rfl
    rw [this]
    exact hs.imp (fun h => of_decide_eq_true h)
  · intro s
    cases preferred_quotes with
    | none =>
      simp only [find_common_symbols, List.mem_mergeSort, List.mem_map,
        List.mem_filter]
      constructor
      · rintro ⟨p, ⟨hpa, hpb⟩, hs⟩
        refine ⟨⟨p, hpa, ?_, hs.symm⟩, ?_⟩
        · simpa [List.contains] using hpb
        · intro qs hqs
          cases hqs
      · rintro ⟨⟨p, hpa, hpb, hs⟩, -⟩
        exact ⟨p, ⟨hpa, by simpa [List.contains] using hpb⟩, hs.symm⟩
    | some qs =>
      by_cases hqs : qs.isEmpty = true
      · have hqsnil : qs = [] := List.isEmpty_iff.mp hqs
        subst hqsnil
        simp only [find_common_symbols, List.isEmpty_nil, if_true,
          List.mem_mergeSort, List.mem_map, List.mem_filter]
        constructor
        · rintro ⟨p, ⟨hpa, hpb⟩, hs⟩
          refine ⟨⟨p, hpa, by simpa [List.contains] using hpb, hs.symm⟩, ?_⟩
          intro qs2 hq hne
          cases hq
          exact absurd rfl hne
        · rintro ⟨⟨p, hpa, hpb, hs⟩, -⟩
          exact ⟨p, ⟨hpa, by simpa [List.contains] using hpb⟩, hs.symm⟩
      · have hqsne : qs ≠ [] := by
          intro h
          rw [h] at hqs
          simp at hqs
        simp only [find_common_symbols, hqs, Bool.false_eq_true, if_false,
          List.mem_mergeSort, List.mem_filter, List.mem_map]
        constructor
        · rintro ⟨⟨p, ⟨hpa, hpb⟩, hs⟩, hpred⟩
          refine ⟨⟨p, hpa, by simpa [List.contains] using hpb, hs.symm⟩, ?_⟩
          intro qs2 hq
          cases hq
          intro
          obtain ⟨u, hu, hbeq⟩ := List.contains_iff_exists_mem_beq.mp hpred
          obtain ⟨q, hqmem, hq2⟩ := List.mem_map.mp hu
          refine ⟨q, hqmem, ?_⟩
          rw [← hq2] at hbeq
          exact beq_iff_eq.mp hbeq
        · rintro ⟨⟨p, hpa, hpb, hs⟩, hpred⟩
          refine ⟨⟨p, ⟨hpa, by simpa [List.contains] using hpb⟩, hs.symm⟩, ?_⟩
          obtain ⟨q, hqmem, hq2⟩ := hpred qs rfl hqsne
          apply List.contains_iff_exists_mem_beq.mpr
          exact ⟨upperStr q, List.mem_map.mpr ⟨q, hqmem, rfl⟩,
            by simpa [List.getD] using hq2⟩
  · simp only [find_common_symbols]
    have hne : (["USDT".data].isEmpty) = false := rfl
    rw [hne]
    simp only [Bool.false_eq_true, if_false]
    apply mergeSort_of_eq_singleton
    decide

theorem firstSuccess_eq_none_iff (fetch : FetchFun) (cands : List (Option Nat)) :
    firstSuccess fetch cands = none ↔
      ∀ cand ∈ cands, ∃ e, fetch cand = Except.error e := by
  induction cands with
  | nil => simp [firstSuccess]
  | cons cand rest ih =>
    cases hfc : fetch cand with
    | ok ob =>
      simp only [firstSuccess, hfc]
      constructor
      · intro h; cases h
      · intro h
        obtain ⟨e, he⟩ := h cand (List.mem_cons_self _ _)
        rw [hfc] at he
        cases he
    | error e =>
      simp only [firstSuccess, hfc, ih]
      constructor
      · intro h c hc
        rcases List.mem_cons.mp hc with h2 | h2
        · exact ⟨e, h2 ▸ hfc⟩
        · exact h c h2
      · intro h c hc
        exact h c (List.mem_cons_of_mem _ hc)

/-- C6: `fetch_order_book_safe` returns the first attempt's book on success;
on failure it retries along the ladder `[20, 100]` for the two known
depth-limited exchanges, `[20, 50, 100]` when the error text mentions
"limit" with one of 20/50/100/500/1000, and a single depth-unspecified fetch
otherwise, swallowing individual fallback failures and returning no value
exactly when every attempt fails (it never raises: it is total into
`Option`). -/
theorem claim_C6_fetch_safe (exchange_id : String) (fetch : FetchFun)
    (limit : Nat) :
    (∀ ob, fetch (some limit) = Except.ok ob →
      fetch_order_book_safe exchange_id fetch limit = some ob) ∧
    (∀ msg, fetch (some limit) = Except.error msg →
      fetch_order_book_safe exchange_id fetch limit
        = firstSuccess fetch (fallbackCandidates exchange_id msg) ∧
      ((exchange_id = "kucoin" ∨ exchange_id = "kucoinfutures") →
        fallbackCandidates exchange_id msg = [some 20, some 100]) ∧
      (¬(exchange_id = "kucoin" ∨ exchange_id = "kucoinfutures") →
        limitHintedMsg msg = true →
        fallbackCandidates exchange_id msg = [some 20, some 50, some 100]) ∧
      (¬(exchange_id = "kucoin" ∨ exchange_id = "kucoinfutures") →
        limitHintedMsg msg = false →
        fallbackCandidates exchange_id msg = [none]) ∧
      (fetch_order_book_safe exchange_id fetch limit = none ↔
        ∀ cand ∈ fallbackCandidates exchange_id msg,
          ∃ e, fetch cand = Except.error e)) := by
  constructor
  · intro ob h
    simp [fetch_order_book_safe, h]
  · intro msg h
    refine ⟨by simp [fetch_order_book_safe, h], ?_, ?_, ?_, ?_⟩
    · intro hk
      simp [fallbackCandidates, hk]
    · intro hk hl
      simp [fallbackCandidates, hk, hl]
    · intro hk hl
      simp [fallbackCandidates, hk, hl]
    · rw [show fetch_order_book_safe exchange_id fetch limit
        = firstSuccess fetch (fallbackCandidates exchange_id msg) from
          by simp [fetch_order_book_safe, h]]
      exact firstSuccess_eq_none_iff fetch _

/-- Witness for C6: on the depth-limited exchange the ladder is `[20, 100]`
and the depth-20 retry succeeds. -/
theorem claim_C6_witness :
    fetch_order_book_safe "kucoin" fetchW 50
      = firstSuccess fetchW (fallbackCandidates "kucoin" "fail".data) ∧
    fetch_order_book_safe "kucoin" fetchW 50 = some ⟨[], []⟩ := by
  constructor
  · exact ((claim_C6_fetch_safe "kucoin" fetchW 50).2 "fail".data rfl).1
  · rfl

/-- C7: writing then reading a JSON-serializable value returns it whenever no
ttl is given or the elapsed time is within the ttl, returns no value once
the elapsed time exceeds the ttl, and a second write fully replaces the
prior payload and timestamp. -/
theorem claim_C7_cache_roundtrip {α : Type} (enc : α → Str)
    (dec : Str → Option α) (value : α)
    (hroundtrip : dec (enc value) = some value)
    (st : List KVRow) (key : String) (t_write t_read : ℤ) (ttl : ℤ) :
    get_json dec (set_json enc st t_write key value) t_read key none
      = some value ∧
    (t_read - t_write ≤ ttl →
      get_json dec (set_json enc st t_write key value) t_read key (some ttl)
        = some value) ∧
    (t_read - t_write > ttl →
      get_json dec (set_json enc st t_write key value) t_read key (some ttl)
        = none) ∧
    (∀ (value2 : α) (t2 : ℤ),
      kvLookup (set_json enc (set_json enc st t_write key value) t2 key value2)
        key = some (enc value2, t2)) := by
  have hlook : kvLookup (set_json enc st t_write key value) key
      = some (enc value, t_write) := by
    simp [kvLookup, set_json, kvUpsert, List.find?]
  refine ⟨?_, ?_, ?_, ?_⟩
  · simp [get_json, hlook, hroundtrip]
  · intro hin
    simp [get_json, hlook, not_lt.mpr hin, hroundtrip]
  · intro hout
    simp [get_json, hlook, hout]
  · intro value2 t2
    simp [kvLookup, set_json, kvUpsert, List.find?]

/-- Witness for C7 at value 5, write time 100, read time 105, ttl 10. -/
theorem claim_C7_witness :
    get_json decW (set_json encW [] 100 "markets:binance" 5) 105
      "markets:binance" none = some 5 ∧
    ((105 : ℤ) - 100 ≤ 10 →
      get_json decW (set_json encW [] 100 "markets:binance" 5) 105
        "markets:binance" (some 10) = some 5) ∧
    ((105 : ℤ) - 100 > 10 →
      get_json decW (set_json encW [] 100 "markets:binance" 5) 105
        "markets:binance" (some 10) = none) ∧
    (∀ (value2 : ℕ) (t2 : ℤ),
      kvLookup (set_json encW (set_json encW [] 100 "markets:binance" 5) t2
        "markets:binance" value2) "markets:binance" = some (encW value2, t2)) := by
  exact claim_C7_cache_roundtrip encW decW 5 (by simp [encW, decW]) []
    "markets:binance" 100 105 10

theorem cacheLookup_insert (c : NetCache) (b0 b : Str) (v : Option String × ℚ) :
    cacheLookup (cacheInsert c b0 v) b
      = if b0 = b then some v else cacheLookup c b := by
  simp only [cacheLookup, cacheInsert, List.find?]
  by_cases h : b0 = b
  · simp [h]
  · simp [cacheLookup, h, beq_eq_false_iff_ne.mpr h]

theorem cacheLookup_insert_self (c : NetCache) (b : Str) (v : Option String × ℚ) :
    cacheLookup (cacheInsert c b v) b = some v := by
  simp [cacheLookup_insert]

theorem recordIf_eq_filter (m : ℚ) (c : Option Opportunity) :
    recordIf m c = (recordAll c).filter (fun o => decide (m ≤ o.profit_pct)) := by
  cases c with
  | none => rfl
  | some o =>
    by_cases h : m ≤ o.profit_pct <;> simp [recordIf, recordAll, h]

theorem stepSymbol_filter (env : ScanEnv) (cache : NetCache) (sym : Str) :
    (stepSymbol env cache sym).cache = (stepSymbolAll env cache sym).cache ∧
    (stepSymbol env cache sym).events = (stepSymbolAll env cache sym).events ∧
    (stepSymbol env cache sym).opps = (stepSymbolAll env cache sym).opps.filter
      (fun o => decide (env.min_profit_pct ≤ o.profit_pct)) := by
  refine ⟨rfl, rfl, ?_⟩
  simp [stepSymbol, stepSymbolAll, recordIf_eq_filter, List.filter_append]

theorem scanLoop_filter (env : ScanEnv) (symbols : List Str) :
    ∀ cache,
      (scanLoop env symbols cache).cache = (scanAllLoop env symbols cache).cache ∧
      (scanLoop env symbols cache).events
        = (scanAllLoop env symbols cache).events ∧
      (scanLoop env symbols cache).opps
        = (scanAllLoop env symbols cache).opps.filter
          (fun o => decide (env.min_profit_pct ≤ o.profit_pct)) := by
  induction symbols with
  | nil => intro cache; exact ⟨rfl, rfl, rfl⟩
  | cons sym rest ih =>
    intro cache
    obtain ⟨hc, he, ho⟩ := stepSymbol_filter env cache sym
    obtain ⟨hc2, he2, ho2⟩ := ih (stepSymbol env cache sym).cache
    rw [hc] at hc2 he2 ho2
    refine ⟨?_, ?_, ?_⟩
    · simp only [scanLoop, scanAllLoop]
      exact hc2
    · simp only [scanLoop, scanAllLoop]
      rw [he, hc, he2]
    · simp only [scanLoop, scanAllLoop, List.filter_append]
      rw [ho, hc, ho2]

/-- C3: the scan pass records an opportunity for a symbol/direction exactly
when its computed fee-aware profit percent is ≥ the configured minimum — the
recorded list is precisely the threshold filter of the all-candidates list —
and the returned opportunity list is sorted by profit percent descending. -/
theorem claim_C3_scan_threshold (env : ScanEnv) (symbols : List Str) :
    scan_two_exchanges env symbols =
      ((scanAllLoop env symbols []).opps.filter
        (fun o => decide (env.min_profit_pct ≤ o.profit_pct))).mergeSort
        (fun x y => decide (y.profit_pct ≤ x.profit_pct)) ∧
    List.Sorted (fun x y => y.profit_pct ≤ x.profit_pct)
      (scan_two_exchanges env symbols) := by
  constructor
  · rw [scan_two_exchanges, (scanLoop_filter env symbols []).2.2]
  · have htrans : ∀ a b c : Opportunity,
        (fun x y => decide (y.profit_pct ≤ x.profit_pct)) a b = true →
        (fun x y => decide (y.profit_pct ≤ x.profit_pct)) b c = true →
        (fun x y => decide (y.profit_pct ≤ x.profit_pct)) a c = true := by
      intro a b c hab hbc
      simp only [decide_eq_true_eq] at hab hbc ⊢
      exact le_trans hbc hab
    have htotal : ∀ a b : Opportunity,
        ((fun x y => decide (y.profit_pct ≤ x.profit_pct)) a b ||
         (fun x y => decide (y.profit_pct ≤ x.profit_pct)) b a) = true := by
      intro a b
      simp only [Bool.or_eq_true, decide_eq_true_eq]
      exact le_total b.profit_pct a.profit_pct
    exact (List.sorted_mergeSort htrans htotal _).imp
      (fun h => of_decide_eq_true h)

/-- Case analysis of one loop iteration: either no
`find_cheapest_common_network_fee` call happens and the cache is unchanged,
or exactly one forward (A→B) call for the symbol's base asset happens — the
base was not cached, its entry becomes the forward result, and both
candidate opportunities carry the forward result's network and were computed
with the forward result's fee.  The reverse-direction lookup of scanner.py
line 168 is dead code: the reverse block only runs after the forward block
has populated the cache for the same base. -/
theorem stepCandidates_spec (env : ScanEnv) (cache : NetCache) (sym : Str) :
    ((stepCandidates env cache sym).2.1 = [] ∧
      (stepCandidates env cache sym).1 = cache) ∨
    (∃ b, (stepCandidates env cache sym).2.1 = [(Direction.ab, b)] ∧
      cacheLookup cache b = none ∧
      (stepCandidates env cache sym).1
        = cacheInsert cache b (netEntry (env.netAB b)) ∧
      ∀ o, ((stepCandidates env cache sym).2.2.1 = some o ∨
            (stepCandidates env cache sym).2.2.2 = some o) →
        o.network = (netEntry (env.netAB b)).1 ∧
        ∃ tfb tfs, o.profit_pct = estimate_fee_aware_profit_pct o.buy_price
          o.sell_price o.base_amount tfb tfs (netEntry (env.netAB b)).2) := by
  unfold stepCandidates
  cases hba : env.books_a sym with
  | none => exact Or.inl ⟨by trivial, by trivial⟩
  | some ob_a =>
  cases hbb : env.books_b sym with
  | none => exact Or.inl ⟨by trivial, by trivial⟩
  | some ob_b =>
  cases hsp : splitSlash sym with
  | nil => exact Or.inl ⟨by trivial, by trivial⟩
  | cons b0 rest0 =>
  cases rest0 with
  | nil => exact Or.inl ⟨by trivial, by trivial⟩
  | cons q0 rest1 =>
  cases rest1 with
  | cons x xs => exact Or.inl ⟨by trivial, by trivial⟩
  | nil =>
  by_cases hq : ((env.preferred_quotes.map upperStr).contains (upperStr q0)) = true
  · simp only [hq, if_true]
    by_cases hempty : (ob_a.asks.isEmpty || ob_b.bids.isEmpty) = true
    · simp only [hempty, if_true]
      exact Or.inl ⟨by trivial, by trivial⟩
    · simp only [Bool.not_eq_true] at hempty
      simp only [hempty, Bool.false_eq_true, if_false]
      cases hv1 : compute_vwap_for_amount "buy" ob_a.asks
          (max (1 / 10 ^ 6) (env.min_notional_usd / levelPrice ob_a.asks.headI)) with
      | none => exact Or.inl ⟨by trivial, by trivial⟩
      | some p1 =>
      obtain ⟨buy_avg, buy_filled⟩ := p1
      cases hv2 : compute_vwap_for_amount "sell" ob_b.bids
          (max (1 / 10 ^ 6) (env.min_notional_usd / levelPrice ob_a.asks.headI)) with
      | none => exact Or.inl ⟨by trivial, by trivial⟩
      | some p2 =>
      obtain ⟨sell_avg, sell_filled⟩ := p2
      by_cases hamt : min buy_filled sell_filled ≤ 0
      · simp only [if_pos hamt]
        exact Or.inl ⟨by trivial, by trivial⟩
      · simp only [if_neg hamt]
        cases hcl : cacheLookup cache b0 with
        | some v0 =>
          -- forward finds the base already cached: no event, cache unchanged
          simp only [hcl]
          by_cases hemptyb : (ob_b.asks.isEmpty || ob_a.bids.isEmpty) = true
          · simp only [hemptyb, if_true]
            exact Or.inl ⟨by trivial, by trivial⟩
          · simp only [Bool.not_eq_true] at hemptyb
            simp only [hemptyb, Bool.false_eq_true, if_false]
            cases hv3 : compute_vwap_for_amount "buy" ob_b.asks
                (max (1 / 10 ^ 6) (env.min_notional_usd / levelPrice ob_b.asks.headI)) with
            | none => exact Or.inl ⟨by trivial, by trivial⟩
            | some p3 =>
            obtain ⟨buy_avg_b, buy_filled_b⟩ := p3
            cases hv4 : compute_vwap_for_amount "sell" ob_a.bids
                (max (1 / 10 ^ 6) (env.min_notional_usd / levelPrice ob_b.asks.headI)) with
            | none => exact Or.inl ⟨by trivial, by trivial⟩
            | some p4 =>
            obtain ⟨sell_avg_a, sell_filled_a⟩ := p4
            exact Or.inl ⟨by trivial, by trivial⟩
        | none =>
          -- forward performs the lookup and populates the cache
          simp only [hcl, cacheLookup_insert_self, Option.getD_some]
          by_cases hemptyb : (ob_b.asks.isEmpty || ob_a.bids.isEmpty) = true
          · simp only [hemptyb, if_true]
            refine Or.inr ⟨b0, rfl, hcl, rfl, ?_⟩
            intro o ho
            rcases ho with ho | ho
            · cases ho
              exact ⟨rfl, env.taker_a sym, env.taker_b sym, rfl⟩
            · cases ho
          · simp only [Bool.not_eq_true] at hemptyb
            simp only [hemptyb, Bool.false_eq_true, if_false]
            cases hv3 : compute_vwap_for_amount "buy" ob_b.asks
                (max (1 / 10 ^ 6) (env.min_notional_usd / levelPrice ob_b.asks.headI)) with
            | none =>
              refine Or.inr ⟨b0, rfl, hcl, rfl, ?_⟩
              intro o ho
              rcases ho with ho | ho
              · cases ho
                exact ⟨rfl, env.taker_a sym, env.taker_b sym, rfl⟩
              · cases ho
            | some p3 =>
            obtain ⟨buy_avg_b, buy_filled_b⟩ := p3
            cases hv4 : compute_vwap_for_amount "sell" ob_a.bids
                (max (1 / 10 ^ 6) (env.min_notional_usd / levelPrice ob_b.asks.headI)) with
            | none =>
              refine Or.inr ⟨b0, rfl, hcl, rfl, ?_⟩
              intro o ho
              rcases ho with ho | ho
              · cases ho
                exact ⟨rfl, env.taker_a sym, env.taker_b sym, rfl⟩
              · cases ho
            | some p4 =>
            obtain ⟨sell_avg_a, sell_filled_a⟩ := p4
            refine Or.inr ⟨b0, rfl, hcl, rfl, ?_⟩
            intro o ho
            rcases ho with ho | ho
            · cases ho
              exact ⟨rfl, env.taker_a sym, env.taker_b sym, rfl⟩
            · cases ho
              exact ⟨rfl, env.taker_b sym, env.taker_a sym, rfl⟩
  · simp only [Bool.not_eq_true] at hq
    simp only [hq, Bool.false_eq_true, if_false]
    exact Or.inl ⟨by trivial, by trivial⟩

theorem stepSymbol_events_def (env : ScanEnv) (cache : NetCache) (sym : Str) :
    (stepSymbol env cache sym).events = (stepCandidates env cache sym).2.1 := rfl

theorem stepSymbol_cache_def (env : ScanEnv) (cache : NetCache) (sym : Str) :
    (stepSymbol env cache sym).cache = (stepCandidates env cache sym).1 := rfl

/-- Loop invariant for the network-fee memoization: every lookup event is for
a base absent from the incoming cache, event bases are distinct, cache
entries persist, and every looked-up base ends up cached. -/
theorem scanLoop_events_spec (env : ScanEnv) (symbols : List Str) :
    ∀ cache,
      ((scanLoop env symbols cache).events.map Prod.snd).Nodup ∧
      (∀ b, b ∈ (scanLoop env symbols cache).events.map Prod.snd →
        cacheLookup cache b = none) ∧
      (∀ b v, cacheLookup cache b = some v →
        cacheLookup (scanLoop env symbols cache).cache b = some v) ∧
      (∀ b, b ∈ (scanLoop env symbols cache).events.map Prod.snd →
        ∃ v, cacheLookup (scanLoop env symbols cache).cache b = some v) := by
  induction symbols with
  | nil =>
    intro cache
    refine ⟨List.nodup_nil, ?_, ?_, ?_⟩ <;> simp [scanLoop]
  | cons sym rest ih =>
    intro cache
    have hcons_ev : (scanLoop env (sym :: rest) cache).events
        = (stepSymbol env cache sym).events
          ++ (scanLoop env rest (stepSymbol env cache sym).cache).events := rfl
    have hcons_c : (scanLoop env (sym :: rest) cache).cache
        = (scanLoop env rest (stepSymbol env cache sym).cache).cache := rfl
    rcases stepCandidates_spec env cache sym with ⟨hev, hc⟩ | ⟨b, hev, hnone, hc, -⟩
    · have hstev : (stepSymbol env cache sym).events = [] := by
        rw [stepSymbol_events_def, hev]
      have hstc : (stepSymbol env cache sym).cache = cache := by
        rw [stepSymbol_cache_def, hc]
      rw [hstev, hstc] at hcons_ev
      rw [hstc] at hcons_c
      obtain ⟨ih1, ih2, ih3, ih4⟩ := ih cache
      rw [hcons_ev, hcons_c]
      simp only [List.nil_append]
      exact ⟨ih1, ih2, ih3, ih4⟩
    · have hstev : (stepSymbol env cache sym).events = [(Direction.ab, b)] := by
        rw [stepSymbol_events_def, hev]
      have hstc : (stepSymbol env cache sym).cache
          = cacheInsert cache b (netEntry (env.netAB b)) := by
        rw [stepSymbol_cache_def, hc]
      rw [hstev, hstc] at hcons_ev
      rw [hstc] at hcons_c
      obtain ⟨ih1, ih2, ih3, ih4⟩ :=
        ih (cacheInsert cache b (netEntry (env.netAB b)))
      rw [hcons_ev, hcons_c]
      have hbnotin : b ∉ ((scanLoop env rest
          (cacheInsert cache b (netEntry (env.netAB b)))).events.map Prod.snd) := by
        intro hmem
        have := ih2 b hmem
        rw [cacheLookup_insert_self] at this
        cases this
      simp only [List.map_append, List.map_cons, List.map_nil,
        List.cons_append, List.nil_append]
      refine ⟨?_, ?_, ?_, ?_⟩
      · exact List.nodup_cons.mpr ⟨hbnotin, ih1⟩
      · intro b2 hb2
        rcases List.mem_cons.mp hb2 with hb2 | hb2
        · rw [hb2]; exact hnone
        · have h2 := ih2 b2 hb2
          rw [cacheLookup_insert] at h2
          by_cases hbb2 : b = b2
          · rw [if_pos hbb2] at h2; cases h2
          · rwa [if_neg hbb2] at h2
      · intro b2 v hv
        apply ih3
        rw [cacheLookup_insert]
        have hbb2 : ¬ b = b2 := by
          intro heq
          rw [← heq, hnone] at hv
          cases hv
        rw [if_neg hbb2]
        exact hv
      · intro b2 hb2
        rcases List.mem_cons.mp hb2 with hb2 | hb2
        · rw [hb2]
          exact ⟨netEntry (env.netAB b), ih3 b _ (cacheLookup_insert_self _ _ _)⟩
        · exact ih4 b2 hb2

theorem mem_recordIf (m : ℚ) (c : Option Opportunity) (o : Opportunity)
    (h : o ∈ recordIf m c) : c = some o := by
  cases c with
  | none => cases h
  | some o2 =>
    by_cases hm : m ≤ o2.profit_pct
    · simp only [recordIf, if_pos hm, List.mem_singleton] at h
      rw [h]
    · simp only [recordIf, if_neg hm] at h
      cases h

/-- C4: within one scan pass the network-fee memoization key is the base
asset alone — `find_cheapest_common_network_fee` runs at most once per base
asset (the event bases are distinct), and whenever the forward (A→B) lookup
ran for a symbol's base, no reverse (B→A) lookup happens for it and every
opportunity emitted by that iteration (the reverse-direction one included)
carries the forward lookup's network name and was computed with the forward
lookup's fee. -/
theorem claim_C4_network_fee_memo :
    (∀ env symbols,
      ((scanLoop env symbols []).events.map Prod.snd).Nodup) ∧
    (∀ env cache sym b,
      (Direction.ab, b) ∈ (stepSymbol env cache sym).events →
      (Direction.ba, b) ∉ (stepSymbol env cache sym).events ∧
      ∀ o ∈ (stepSymbol env cache sym).opps,
        o.network = (netEntry (env.netAB b)).1 ∧
        ∃ tfb tfs, o.profit_pct = estimate_fee_aware_profit_pct o.buy_price
          o.sell_price o.base_amount tfb tfs (netEntry (env.netAB b)).2) := by
  constructor
  · intro env symbols
    exact (scanLoop_events_spec env symbols []).1
  · intro env cache sym b hab
    rcases stepCandidates_spec env cache sym with ⟨hev, -⟩ | ⟨b1, hev, -, -, hcand⟩
    · rw [stepSymbol_events_def, hev] at hab
      cases hab
    · rw [stepSymbol_events_def, hev] at hab
      have hb : b = b1 := by
        rcases List.mem_singleton.mp hab with h
        exact (Prod.mk.injEq _ _ _ _).mp h |>.2
      subst hb
      constructor
      · intro hba
        rw [stepSymbol_events_def, hev] at hba
        rcases List.mem_singleton.mp hba with h
        cases (Prod.mk.injEq _ _ _ _).mp h |>.1
      · intro o ho
        have ho2 : o ∈ recordIf env.min_profit_pct (stepCandidates env cache sym).2.2.1
            ++ recordIf env.min_profit_pct (stepCandidates env cache sym).2.2.2 := ho
        rcases List.mem_append.mp ho2 with h | h
        · exact hcand o (Or.inl (mem_recordIf _ _ _ h))
        · exact hcand o (Or.inr (mem_recordIf _ _ _ h))

/-- C9: when `find_cheapest_common_network_fee` finds no shared network for
a base asset, the scanner caches `(None, 0.0)` for it and still evaluates
the symbol: every opportunity computed by that iteration uses a withdrawal
fee of exactly 0 and carries an absent network. -/
theorem claim_C9_missing_network (env : ScanEnv) (cache : NetCache) (sym : Str)
    (b : Str)
    (hab : (Direction.ab, b) ∈ (stepSymbol env cache sym).events)
    (hnet : env.netAB b = none) :
    cacheLookup (stepSymbol env cache sym).cache b = some (none, 0) ∧
    ∀ o ∈ (stepSymbol env cache sym).opps,
      o.network = none ∧
      ∃ tfb tfs, o.profit_pct = estimate_fee_aware_profit_pct o.buy_price
        o.sell_price o.base_amount tfb tfs 0 := by
  rcases stepCandidates_spec env cache sym with ⟨hev, -⟩ | ⟨b1, hev, -, hc, hcand⟩
  · rw [stepSymbol_events_def, hev] at hab
    cases hab
  · rw [stepSymbol_events_def, hev] at hab
    have hb : b = b1 := by
      rcases List.mem_singleton.mp hab with h
      exact (Prod.mk.injEq _ _ _ _).mp h |>.2
    subst hb
    have hentry : netEntry (env.netAB b) = (none, 0) := by
      rw [hnet]; rfl
    constructor
    · rw [stepSymbol_cache_def, hc, hentry]
      exact cacheLookup_insert_self _ _ _
    · intro o ho
      have ho2 : o ∈ recordIf env.min_profit_pct (stepCandidates env cache sym).2.2.1
          ++ recordIf env.min_profit_pct (stepCandidates env cache sym).2.2.2 := ho
      have hres : o.network = (netEntry (env.netAB b)).1 ∧
          ∃ tfb tfs, o.profit_pct = estimate_fee_aware_profit_pct o.buy_price
            o.sell_price o.base_amount tfb tfs (netEntry (env.netAB b)).2 := by
        rcases List.mem_append.mp ho2 with h | h
        · exact hcand o (Or.inl (mem_recordIf _ _ _ h))
        · exact hcand o (Or.inr (mem_recordIf _ _ _ h))
      rw [hentry] at hres
      exact hres

theorem splitSlash_symW : splitSlash ['B', '/', 'U'] = [['B'], ['U']] := by
  decide

theorem stepW_events :
    (stepSymbol envW [] symW).events = [(Direction.ab, "B".data)] := by
  norm_num [stepSymbol, stepCandidates, envW, symW, bookA, bookB,
    splitSlash_symW, upperStr, compute_vwap_for_amount, vwapLoop, validLevel,
    levelPrice, levelAmount, vwapEps, cacheLookup, cacheInsert, netEntry,
    List.contains, List.headI]

theorem stepW9_events :
    (stepSymbol envW9 [] symW).events = [(Direction.ab, "B".data)] := by
  norm_num [stepSymbol, stepCandidates, envW9, symW, bookA, bookB,
    splitSlash_symW, upperStr, compute_vwap_for_amount, vwapLoop, validLevel,
    levelPrice, levelAmount, vwapEps, cacheLookup, cacheInsert, netEntry,
    List.contains, List.headI]

/-- Witness for C4: in the concrete environment the forward lookup for base
`B` runs; no reverse lookup happens and both recorded opportunities carry
the forward lookup's network and fee. -/
theorem claim_C4_witness :
    (Direction.ba, "B".data) ∉ (stepSymbol envW [] symW).events ∧
    ∀ o ∈ (stepSymbol envW [] symW).opps,
      o.network = (netEntry (envW.netAB "B".data)).1 ∧
      ∃ tfb tfs, o.profit_pct = estimate_fee_aware_profit_pct o.buy_price
        o.sell_price o.base_amount tfb tfs (netEntry (envW.netAB "B".data)).2 := by
  refine claim_C4_network_fee_memo.2 envW [] symW "B".data ?_
  rw [stepW_events]
  exact List.mem_singleton.mpr rfl

/-- Witness for C9: with no shared network anywhere, base `B` is cached as
`(none, 0)` and the symbol is still evaluated with withdrawal fee 0. -/
theorem claim_C9_witness :
    cacheLookup (stepSymbol envW9 [] symW).cache "B".data = some (none, 0) ∧
    ∀ o ∈ (stepSymbol envW9 [] symW).opps,
      o.network = none ∧
      ∃ tfb tfs, o.profit_pct = estimate_fee_aware_profit_pct o.buy_price
        o.sell_price o.base_amount tfb tfs 0 := by
  refine claim_C9_missing_network envW9 [] symW "B".data ?_ rfl
  rw [stepW9_events]
  exact List.mem_singleton.mpr rfl
